import Mathlib

/-!
# Verification of the OpenMDAO1 connection/transfer/derivative core

Shallow embedding of `src/openmdao/core/data_transfer.py` and
`src/openmdao/core/group.py`.  Numeric storage (`VecWrapper.vec`, numpy
1-d float arrays) is modelled as `List Int` (for the transfer and
derivative-propagation claims, whose operations are all ring
operations) or `List ℚ` (for the solver tolerance claim); flattened
indices are `Nat`.  Dictionaries that the Python code iterates in
insertion order are modelled as association lists in the same order.

Collaborators that live outside the two source files (`to_slices` from
`openmdao.util`, the `VecWrapper` storage object, a leaf `Component`'s
`apply_linear`) are modelled from the spec and are marked as such in
their doc comments.
-/

set_option autoImplicit false

namespace OM

/-- Direction of a scatter / derivative pass: `'fwd'` or `'rev'`. -/
inductive Mode where
  | fwd
  | rev
deriving DecidableEq, Repr

/-! ## Numeric storage

`VecWrapper` (external collaborator): a flattened numeric buffer plus
pass-by-object entries addressed by variable name.  Modelled from the
spec (§6: "element access by variable path, a contiguous flattened
view", and by-object values that "are never scattered elementwise"). -/

/-- A storage vector: the flattened numeric buffer `.vec` together with
the pass-by-object values, addressed by variable name. -/
structure VecT where
  vec : List Int
  byobj : String → Int

/-- Reading `l.getD i 0`: value of the flattened buffer at index `i`
(numpy indexing; all indices used by a transfer are in range). -/
def nth (l : List Int) (i : Nat) : Int := l.getD i 0

/-- Assignment `tgt[t] = src[s]` executed once per `(t, s)` pair, in order: the
elementwise semantics of numpy fancy-index assignment
`tgtvec.vec[tgt_slice] = srcvec.vec[src_slice]` (the gather from `src`
is read-only, so sequential writes are equivalent). -/
def setAt (tgt : List Int) (pairs : List (Nat × Nat)) (src : List Int) : List Int :=
  pairs.foldl (fun acc p => acc.set p.1 (nth src p.2)) tgt

/-- Accumulation `src[s] += tgt[t]` executed once per `(s, t)` pair, in order: the
semantics of `np.add.at(srcvec.vec, src_slice, tgtvec.vec[tgt_slice])`,
which sums contributions even when an index repeats (and of the slice
branch `srcvec.vec[src_slice] += ...`, since a slice never repeats an
index). -/
def addAt (src : List Int) (pairs : List (Nat × Nat)) (tgt : List Int) : List Int :=
  pairs.foldl (fun acc p => acc.set p.1 (nth acc p.1 + nth tgt p.2)) src

/-! ## DataTransfer (`src/openmdao/core/data_transfer.py`) -/

/-- Modelled from the spec: `to_slices` (from `openmdao.util`, not under
`src/`) pairs the two index arrays, sorts the pairs by the first
array's values, and converts each array "to the most compact
representation possible: a contiguous range when the indices form one,
otherwise an explicit index list".  We keep explicit index lists: a
contiguous range is a special case whose execution semantics coincide
with the indexed ones (a range repeats no index, so slice assignment
and `+=` agree with fancy assignment and `np.add.at`). -/
def to_slices (key other : List Nat) : List Nat × List Nat :=
  let sorted := List.insertionSort (fun a b : Nat × Nat => a.1 ≤ b.1) (key.zip other)
  (sorted.map Prod.fst, sorted.map Prod.snd)

/-- The `DataTransfer` object after `__init__`: the (possibly sorted)
index arrays plus the by-vector and by-object connection lists. -/
structure DataTransfer where
  src_slice : List Nat
  tgt_slice : List Nat
  vec_conns : List (String × String)
  byobj_conns : List (String × String)

/-- Embedding of `DataTransfer.__init__`: store the connection lists and sort the
index arrays — by source index when `mode == 'fwd'`, by target index
when `mode == 'rev'` — via `to_slices`. -/
def DataTransfer.make (src_idxs tgt_idxs : List Nat)
    (vec_conns byobj_conns : List (String × String)) (mode : Mode) : DataTransfer :=
  if mode = Mode.fwd then
    let st := to_slices src_idxs tgt_idxs
    ⟨st.1, st.2, vec_conns, byobj_conns⟩
  else
    let ts := to_slices tgt_idxs src_idxs
    ⟨ts.2, ts.1, vec_conns, byobj_conns⟩

/-- Embedding of `DataTransfer.transfer(srcvec, tgtvec, mode, deriv)`.  Returns the
pair (source vector, target vector) after the call; the Python method
mutates the vectors in place.

* `mode == 'rev'`: `np.add.at(srcvec.vec, src_slice, tgtvec.vec[tgt_slice])`
  (or `+=` on a slice) — accumulate target values into source slots;
  by-object values are never scattered in reverse.
* otherwise: `tgtvec.vec[tgt_slice] = srcvec.vec[src_slice]`, and, when
  `deriv` is false, also `tgtvec[tgt] = srcvec[src]` for every by-object
  connection. -/
def DataTransfer.transfer (dt : DataTransfer) (srcvec tgtvec : VecT)
    (mode : Mode) (deriv : Bool) : VecT × VecT :=
  match mode with
  | Mode.rev =>
    ({ srcvec with vec := addAt srcvec.vec (dt.src_slice.zip dt.tgt_slice) tgtvec.vec },
     tgtvec)
  | Mode.fwd =>
    let t1 : VecT :=
      { tgtvec with vec := setAt tgtvec.vec (dt.tgt_slice.zip dt.src_slice) srcvec.vec }
    let t2 : VecT :=
      if deriv then t1
      else { t1 with
             byobj := dt.byobj_conns.foldl
               (fun f p => Function.update f p.1 (srcvec.byobj p.2)) t1.byobj }
    (srcvec, t2)

/-- Sum of the contributions that reverse accumulation sends to source
slot `k`: one term per `(s, t)` pair of the plan with `s = k`. -/
def revContrib (k : Nat) (pairs : List (Nat × Nat)) (tgt : List Int) : Int :=
  ((pairs.filter (fun p => p.1 = k)).map (fun p => nth tgt p.2)).sum

/-! ## Connection resolution (`src/openmdao/core/group.py`)

A variable dictionary (`_params_dict` / `_unknowns_dict`) is modelled as
an association list from absolute pathname to the one metadata field
the resolver reads, the `relative_name`, in insertion order. -/

/-- A `_params_dict` / `_unknowns_dict`: entries
`(absolute pathname, relative_name)` in insertion order. -/
abbrev VarDict := List (String × String)

/-- Python dict assignment `m[k] = v` on an insertion-ordered
association list: overwrite the existing entry for `k`, else append. -/
def dictSet (m : List (String × String)) (k v : String) : List (String × String) :=
  if m.any (fun kv => kv.1 = k) then
    m.map (fun kv => if kv.1 = k then (kv.1, v) else kv)
  else m ++ [(k, v)]

/-- Lookup in an insertion-ordered association list (`m.get(k)`). -/
def dictGet (m : List (String × String)) (k : String) : Option String :=
  (m.find? (fun kv => kv.1 = k)).map Prod.snd

/-- Python `m.setdefault(k, []).append(v)` on an insertion-ordered association
list from key to list of values. -/
def setdefaultAppend (m : List (String × List String)) (k v : String) :
    List (String × List String) :=
  if m.any (fun kv => kv.1 = k) then
    m.map (fun kv => if kv.1 = k then (kv.1, kv.2 ++ [v]) else kv)
  else m ++ [(k, [v])]

/-- The grouping loops of `_get_implicit_connections`: collect, per
relative name, the list of absolute names mapping to it
(`abs_unknowns.setdefault(u['relative_name'], []).append(abs_name)`). -/
def groupByRel (d : VarDict) : List (String × List String) :=
  d.foldl (fun m kv => setdefaultAppend m kv.2 kv.1) []

/-- Python `m.get(k, ())`: list of absolute names grouped under relative name
`k`, or `[]`. -/
def getGroup (m : List (String × List String)) (k : String) : List String :=
  match m.find? (fun kv => kv.1 = k) with
  | some kv => kv.2
  | none => []

/-- Embedding of `_get_implicit_connections(params_dict, unknowns_dict)`: group both
dictionaries by relative name; if any relative name is claimed by more
than one unknown, raise `RuntimeError("Promoted name '%s' matches
multiple unknowns: %s" % (name, lst))` — modelled as an `Except.error`
carrying the offending relative name and the full list of conflicting
absolute unknown pathnames, raised before any connection entry is
built; otherwise connect each matching parameter to the single
unknown. -/
def get_implicit_connections (params_dict unknowns_dict : VarDict) :
    Except (String × List String) (List (String × String)) :=
  let abs_unknowns := groupByRel unknowns_dict
  let abs_params := groupByRel params_dict
  match abs_unknowns.find? (fun kv => 1 < kv.2.length) with
  | some kv => Except.error (kv.1, kv.2)
  | none =>
    Except.ok (abs_unknowns.foldl
      (fun conns kv =>
        (getGroup abs_params kv.1).foldl
          (fun c p => dictSet c p (kv.2.headD "")) conns)
      [])

/-- Embedding of `get_absvarpathnames(var_name, var_dict, dict_name)`: the absolute
pathnames whose metadata `relative_name` equals `var_name`, in
dictionary order; raises `RuntimeError("'%s' not found in %s")` —
modelled as an `Except.error` carrying `(var_name, dict_name)` — when
there is no match. -/
def get_absvarpathnames (var_name : String) (var_dict : VarDict) (dict_name : String) :
    Except (String × String) (List String) :=
  let pnames := (var_dict.filter (fun kv => kv.2 = var_name)).map Prod.fst
  if pnames.isEmpty then Except.error (var_name, dict_name) else Except.ok pnames

/-- The `for tgt, src in self._src.items()` loop of
`Group._get_explicit_connections`: for one declared
`(target name, source name)` pair,
`src_pathname = get_absvarpathnames(src, self._unknowns_dict, 'unknowns')[0]`
and then `connections[tgt_pathname] = src_pathname` for every
`tgt_pathname` in `get_absvarpathnames(tgt, self._params_dict, 'params')`;
a raise aborts the loop (`Except.error`). -/
def explicit_conns_loop (params_dict unknowns_dict : VarDict) :
    List (String × String) → List (String × String) →
    Except (String × String) (List (String × String))
  | [], conns => Except.ok conns
  | ts :: rest, conns =>
    match get_absvarpathnames ts.2 unknowns_dict "unknowns" with
    | Except.error e => Except.error e
    | Except.ok srcs =>
      match get_absvarpathnames ts.1 params_dict "params" with
      | Except.error e => Except.error e
      | Except.ok tgts =>
        explicit_conns_loop params_dict unknowns_dict rest
          (tgts.foldl (fun c t => dictSet c t (srcs.headD "")) conns)

/-- Embedding of `Group._get_explicit_connections` restricted to this group's own
`self._src` declarations (the recursion over subgroups only unions the
subgroup results into the same dict): run the declaration loop starting
from an empty connection map. -/
def get_explicit_connections (src_decls : List (String × String))
    (params_dict unknowns_dict : VarDict) :
    Except (String × String) (List (String × String)) :=
  explicit_conns_loop params_dict unknowns_dict src_decls []

/-! ## Linear operator application (`Group.apply_linear`)

Each process-local child owns a view triple `(dparams, dunknowns,
dresids)` of the derivative vectors; views of distinct children are
disjoint, and the parent-level derivative scatter
(`varmanager._transfer_data(deriv=True)`, a `VarManager` collaborator
not under `src/`) is taken as a function on the list of child views. -/

/-- One child's view of the derivative vectors: flattened `dparams`,
`dunknowns` and `dresids` buffers.  The per-variable loops
`dresids[var] += dunknowns.flat[var]` / `dunknowns[var] += dresids.flat[var]`
run over every unknown of the child, and the unknown variables' slices
tile the `dunknowns` and `dresids` buffers identically, so they are
modelled as elementwise addition of whole buffers. -/
structure View where
  dparams : List Int
  dunknowns : List Int
  dresids : List Int
deriving DecidableEq, Repr

/-- A process-local child system as `Group.apply_linear` sees it: the
two `isinstance` facts it branches on, and the child's own
`apply_linear` (for a leaf `Component`, the local linear-operator
collaborator; for a sub-`Group`, its recursive application). -/
structure Child where
  isComponent : Bool
  isParamComp : Bool
  applyLin : Mode → View → View

/-- The statement `dresids.vec *= -1.0`. -/
def negVec (l : List Int) : List Int := l.map (fun x => x * (-1))

/-- The body of the `apply_linear` loop for one process-local child:
explicit `Component`s (not `ParamComp`) get the sign flip and the
identity/diagonal term — after delegating in forward mode, around
delegating in reverse mode; every other system just delegates. -/
def childStep (mode : Mode) (c : Child) (v : View) : View :=
  if c.isComponent && !c.isParamComp then
    match mode with
    | Mode.fwd =>
      let v1 := c.applyLin Mode.fwd v
      let v2 := { v1 with dresids := negVec v1.dresids }
      { v2 with dresids := List.zipWith (· + ·) v2.dresids v2.dunknowns }
    | Mode.rev =>
      let v1 := { v with dresids := negVec v.dresids }
      let v2 := c.applyLin Mode.rev v1
      let v3 := { v2 with dresids := negVec v2.dresids }
      { v3 with dunknowns := List.zipWith (· + ·) v3.dunknowns v3.dresids }
  else
    c.applyLin mode v

/-- Embedding of `Group.apply_linear(params, unknowns, dparams, dunknowns, dresids, mode)`:
inactive groups do nothing; in forward mode first run the full
derivative scatter (`varmanager._transfer_data(deriv=True)`), then loop
over the process-local children in registration order; in reverse mode
loop first and run the full reverse scatter
(`varmanager._transfer_data(mode='rev', deriv=True)`) after all
children.  `xferFwd` / `xferRev` are the `VarManager` transfer
collaborator. -/
def Group.apply_linear (xferFwd xferRev : List View → List View) (active : Bool)
    (children : List Child) (mode : Mode) (views : List View) : List View :=
  if active = false then views
  else
    let vs1 := if mode = Mode.fwd then xferFwd views else views
    let vs2 := List.zipWith (childStep mode) children vs1
    if mode = Mode.rev then xferRev vs2 else vs2

/-- Product `J · x` for a dense local Jacobian block. -/
def mulVec (J : List (List Int)) (x : List Int) : List Int :=
  J.map (fun row => (List.zipWith (· * ·) row x).sum)

/-- Modelled from the spec: the local linear-operator application of an
explicit leaf `Component` (`Component.apply_linear`, not under `src/`)
in forward mode writes the Jacobian-vector product `dG/dp · dp` into
the child's residual-derivative buffer (§4.4: `dr = du - (dG/dp)·dp`
after the group adds the sign flip and the identity term). -/
def localExplicitFwd (J : List (List Int)) : Mode → View → View :=
  fun _ v => { v with dresids := mulVec J v.dparams }

/-- The per-child reverse step exactly as the spec words it: temporarily
negate the residual-derivative, delegate to the child's own
`apply_linear`, negate back, then accumulate the residual-derivative
into the state-derivative slots. -/
def specRevStep (c : Child) (v : View) : View :=
  let v2 := c.applyLin Mode.rev { v with dresids := v.dresids.map (fun x => -x) }
  let v3 := { v2 with dresids := v2.dresids.map (fun x => -x) }
  { v3 with dunknowns := List.zipWith (· + ·) v3.dunknowns v3.dresids }

/-! ## Linear solve wrapper (`Group.solve_linear`) -/

/-- The state of a `Group` that `solve_linear` touches: its activity
flag, the solution and right-hand-side vectors (`self.sol_vec` /
`self.rhs_vec`), and the solver's configured default mode
(`self.ln_solver.options['mode']`). -/
structure LinGroup where
  active : Bool
  sol_vec : List ℚ
  rhs_vec : List ℚ
  ln_mode : Mode

/-- Outcome of one `solve_linear` call: the updated group state, the
Python return value (`None` on the inactive and the ordinary solve
paths), and whether `self.ln_solver.solve` was invoked. -/
structure SolveOut where
  sys : LinGroup
  ret : Option (List ℚ)
  solver_called : Bool

/-- Squared Euclidean norm.  The `VecWrapper.norm` collaborator is the
Euclidean norm (spec §6, "a scalar norm"); since both sides of the
guard `rhs.norm() < 1e-15` are nonnegative, the guard is equivalent to
`normSq rhs < (1e-15)^2`, which keeps the embedding inside ℚ. -/
def normSq (v : List ℚ) : ℚ := (v.map (fun x => x * x)).sum

/-- Embedding of `Group.solve_linear(rhs, params, unknowns, mode)`: inactive groups
return `None`; if `rhs.norm() < 1e-15` zero out `sol_vec` and return
it immediately; otherwise resolve `mode='auto'` from the solver
options, copy `rhs_vec` into the buffer, call the pluggable
`ln_solver.solve` and copy its result into `sol_vec` (returning
`None`).  `mode = none` models the `'auto'` default argument. -/
def solve_linear (solver : List ℚ → Mode → List ℚ) (g : LinGroup) (rhs : List ℚ)
    (mode : Option Mode) : SolveOut :=
  if g.active = false then ⟨g, none, false⟩
  else if normSq rhs < (1 / 10 ^ 15) ^ 2 then
    ⟨{ g with sol_vec := List.replicate g.sol_vec.length 0 },
     some (List.replicate g.sol_vec.length 0), false⟩
  else
    let m := match mode with
      | none => g.ln_mode
      | some m => m
    let sol := solver g.rhs_vec m
    ⟨{ g with sol_vec := sol }, none, true⟩

/-! ## Jacobian assembly (`Group.jacobian`) -/

/-- One local-Jacobian entry: either a bare Python float or a (2-d)
array. -/
inductive JacVal where
  | scalar : ℚ → JacVal
  | arr : List (List ℚ) → JacVal
deriving DecidableEq, Repr

/-- A local child as `Group.jacobian` sees it: the `isinstance` facts,
the `fd_options['force_fd']` flag, what the `fd_jacobian` and
`jacobian` collaborators would return (`jacobian` may return `None`),
and the child's current `_jacobian_cache` attribute. -/
structure JChild where
  isComponent : Bool
  isParamComp : Bool
  force_fd : Bool
  fd_jac : List (String × JacVal)
  ana_jac : Option (List (String × JacVal))
  jac_cache : Option (List (String × JacVal))

/-- The normalization loop: every entry that `isinstance(J, real_types)`
(a bare scalar) is replaced by `np.array([[J]])`. -/
def normalize_jac (jc : List (String × JacVal)) : List (String × JacVal) :=
  jc.map (fun kv =>
    match kv.2 with
    | JacVal.scalar v => (kv.1, JacVal.arr [[v]])
    | JacVal.arr m => (kv.1, JacVal.arr m))

/-- The body of the `Group.jacobian` loop for one local child: obtain
`jacobian_cache` from `fd_jacobian` when `force_fd` else from the
child's `jacobian`; assign it to `system._jacobian_cache` only when the
child is a `Component` and not a `ParamComp`; then normalize scalar
entries in place.  The cache assignment aliases the dictionary that the
normalization loop then mutates, so the cached mapping observed
afterwards is the normalized one. -/
def jacobian_child (c : JChild) : JChild :=
  let jacobian_cache := if c.force_fd then some c.fd_jac else c.ana_jac
  let jacobian_cache := jacobian_cache.map normalize_jac
  if c.isComponent && !c.isParamComp then { c with jac_cache := jacobian_cache } else c

/-- Embedding of `Group.jacobian(params, unknowns, resids)`: run `jacobian_child` on
every process-local child, in registration order. -/
def Group.jacobian (children : List JChild) : List JChild :=
  children.map jacobian_child

/-! ## Variable access (`Group.__getitem__` / `Group.__setitem__`)

Variable and subsystem names are colon-separated paths; they are
modelled pre-split, as nonempty lists of segments, so `name.split(':')`
is the identity and `name.split(':', 1)` is `head :: rest`. -/

/-- A `Group` as the get/set interface sees it: its activity flag
(`is_active()`), its `_varmanager` (`None` before `setup()` has run;
otherwise, modelled from the spec — the `VarManager` collaborator is
not under `src/` — storage giving "element access by variable path",
as an association list from split variable path to value), and its
ordered `_subsystems`. -/
inductive GSys where
  | mk : Bool → Option (List (List String × Int)) → List (String × GSys) → GSys

/-- Accessor `is_active()`. -/
def GSys.active : GSys → Bool
  | GSys.mk a _ _ => a

/-- Accessor `self._varmanager`. -/
def GSys.varmanager : GSys → Option (List (List String × Int))
  | GSys.mk _ v _ => v

/-- Accessor `self._subsystems`. -/
def GSys.subs : GSys → List (String × GSys)
  | GSys.mk _ _ s => s

/-- Lookup `self._subsystems.get(part)`. -/
def lookupSub (subs : List (String × GSys)) (p : String) : Option GSys :=
  (subs.find? (fun kv => kv.1 == p)).map Prod.snd

/-- The subsystem-search loop of `__getitem__`: walk `_subsystems`
along the parts of the name; `some` exactly when every part resolved
(the `for ... else: return sys` clause). -/
def GSys.findSub : GSys → List String → Option GSys
  | g, [] => some g
  | g, p :: ps =>
    match lookupSub g.subs p with
    | some s => GSys.findSub s ps
    | none => none

/-- Element access on the `VarManager` (modelled from the spec:
"element access by variable path"); `none` models the `KeyError` that
`__getitem__` catches. -/
def lookupVM (vm : List (List String × Int)) (name : List String) : Option Int :=
  (vm.find? (fun kv => kv.1 == name)).map Prod.snd

/-- Result of `Group.__getitem__`: a subsystem reference, an
unflattened variable value, Python `None`, or a raised exception
(carrying its message). -/
inductive GetRes where
  | subsysR : GSys → GetRes
  | valueR : Int → GetRes
  | noneR : GetRes
  | errR : String → GetRes

/-- Embedding of `Group.__getitem__(name)` for a plain (non-tuple) name: search for
a subsystem of that pathname first; otherwise, if the group is not
active, return `None`; otherwise require `setup()` to have run, try the
`VarManager`, and on `KeyError` split off the first path segment and
recurse into that subsystem (any exception there is re-raised as
`KeyError("Can't find variable ...")`; a one-segment name makes the
two-variable unpacking of `name.split(':', 1)` itself raise). -/
def GSys.getitem (g : GSys) (name : List String) : GetRes :=
  match _hfs : g.findSub name with
  | some s => GetRes.subsysR s
  | none =>
    if g.active = false then GetRes.noneR
    else
      match g.varmanager with
      | none => GetRes.errR "setup() must be called before variables can be accessed"
      | some vm =>
        match lookupVM vm name with
        | some v => GetRes.valueR v
        | none =>
          match name with
          | [] => GetRes.errR "ValueError: not enough values to unpack"
          | [_] => GetRes.errR "ValueError: not enough values to unpack"
          | subsys :: rest =>
            match lookupSub g.subs subsys with
            | some sub =>
              match GSys.getitem sub rest with
              | GetRes.errR _ => GetRes.errR "KeyError: Cannot find variable"
              | r => r
            | none => GetRes.errR "KeyError: Cannot find variable"
termination_by name.length
decreasing_by simp +arith

/-- Assignment `vm.unknowns[name] = val` (modelled from the spec: element
assignment by variable path on the storage collaborator). -/
def setUnknown (vm : List (List String × Int)) (name : List String) (v : Int) :
    List (List String × Int) :=
  if vm.any (fun kv => kv.1 == name) then
    vm.map (fun kv => if kv.1 == name then (kv.1, v) else kv)
  else vm ++ [(name, v)]

/-- Embedding of `Group.__setitem__(name, val)`: only active groups write into the
unknowns storage (`if self.is_active(): self._varmanager.unknowns[name] = val`);
an active group whose `setup()` has not run hits `None._varmanager`
(`AttributeError`), modelled as an error. -/
def GSys.setitem (g : GSys) (name : List String) (v : Int) : Except String GSys :=
  if g.active then
    match g.varmanager with
    | none => Except.error "AttributeError: NoneType has no attribute unknowns"
    | some vm => Except.ok (GSys.mk true (some (setUnknown vm name v)) g.subs)
  else Except.ok g

/-! ## Helper lemmas: flattened-buffer indexing -/

theorem nth_set_self : ∀ (l : List Int) (i : Nat) (a : Int), i < l.length →
    nth (l.set i a) i = a
  | [], i, _, h => by simp at h
  | _ :: _, 0, _, _ => rfl
  | _ :: xs, i + 1, a, h => nth_set_self xs i a (by simpa using h)

theorem nth_set_ne : ∀ (l : List Int) (i j : Nat) (a : Int), i ≠ j →
    nth (l.set i a) j = nth l j
  | [], _, _, _, _ => by simp [List.set]
  | _ :: _, 0, 0, _, hne => absurd rfl hne
  | _ :: _, 0, _ + 1, _, _ => rfl
  | _ :: _, _ + 1, 0, _, _ => rfl
  | _ :: xs, i + 1, j + 1, a, hne =>
    nth_set_ne xs i j a (fun h => hne (by omega))

theorem nth_replicate_zero (n i : Nat) : nth (List.replicate n (0 : Int)) i = 0 := by
  unfold nth
  rcases lt_or_le i n with h | h
  · rw [List.getD_eq_getElem _ _ (by simpa using h)]
    exact List.getElem_replicate ..
  · exact List.getD_eq_default _ _ (by simpa using h)

/-! ## Helper lemmas: `setAt` (forward fancy assignment) -/

theorem length_setAt (pairs : List (Nat × Nat)) (tgt src : List Int) :
    (setAt tgt pairs src).length = tgt.length := by
  induction pairs generalizing tgt with
  | nil => rfl
  | cons p ps ih => simpa [setAt, List.foldl_cons] using (ih (tgt.set p.1 (nth src p.2)))

theorem nth_setAt_not_mem (pairs : List (Nat × Nat)) (tgt src : List Int) (k : Nat)
    (h : k ∉ pairs.map Prod.fst) :
    nth (setAt tgt pairs src) k = nth tgt k := by
  induction pairs generalizing tgt with
  | nil => rfl
  | cons p ps ih =>
    simp only [List.map_cons, List.mem_cons, not_or] at h
    have : setAt tgt (p :: ps) src = setAt (tgt.set p.1 (nth src p.2)) ps src := rfl
    rw [this, ih _ h.2, nth_set_ne _ _ _ _ (fun hh => h.1 hh.symm)]

theorem nth_setAt_mem (pairs : List (Nat × Nat)) (tgt src : List Int) (t s : Nat)
    (hnd : (pairs.map Prod.fst).Nodup) (hmem : (t, s) ∈ pairs) (ht : t < tgt.length) :
    nth (setAt tgt pairs src) t = nth src s := by
  induction pairs generalizing tgt with
  | nil => simp at hmem
  | cons p ps ih =>
    simp only [List.map_cons, List.nodup_cons] at hnd
    have hstep : setAt tgt (p :: ps) src = setAt (tgt.set p.1 (nth src p.2)) ps src := rfl
    rcases List.mem_cons.1 hmem with heq | htail
    · subst heq
      rw [hstep, nth_setAt_not_mem _ _ _ _ (by simpa using hnd.1)]
      exact nth_set_self tgt t (nth src s) ht
    · rw [hstep]
      exact ih _ hnd.2 htail (by simpa using ht)

/-! ## Helper lemmas: `addAt` (reverse accumulation) -/

theorem length_addAt (pairs : List (Nat × Nat)) (src tgt : List Int) :
    (addAt src pairs tgt).length = src.length := by
  induction pairs generalizing src with
  | nil => rfl
  | cons p ps ih =>
    simpa [addAt, List.foldl_cons] using (ih (src.set p.1 (nth src p.1 + nth tgt p.2)))

theorem revContrib_nil (k : Nat) (tgt : List Int) : revContrib k [] tgt = 0 := rfl

theorem revContrib_cons (k : Nat) (p : Nat × Nat) (ps : List (Nat × Nat)) (tgt : List Int) :
    revContrib k (p :: ps) tgt
      = (if p.1 = k then nth tgt p.2 else 0) + revContrib k ps tgt := by
  by_cases h : p.1 = k <;> simp [revContrib, List.filter_cons, h]

theorem nth_addAt (pairs : List (Nat × Nat)) (src tgt : List Int)
    (h : ∀ p ∈ pairs, p.1 < src.length) (k : Nat) :
    nth (addAt src pairs tgt) k = nth src k + revContrib k pairs tgt := by
  induction pairs generalizing src with
  | nil => simp [addAt, revContrib_nil]
  | cons p ps ih =>
    have hstep : addAt src (p :: ps) tgt
        = addAt (src.set p.1 (nth src p.1 + nth tgt p.2)) ps tgt := rfl
    have hp : p.1 < src.length := h p (List.mem_cons_self ..)
    have hps : ∀ q ∈ ps, q.1 < (src.set p.1 (nth src p.1 + nth tgt p.2)).length := by
      intro q hq
      simpa using h q (List.mem_cons_of_mem _ hq)
    rw [hstep, ih _ hps, revContrib_cons]
    by_cases hk : p.1 = k
    · subst hk
      rw [nth_set_self _ _ _ hp, if_pos rfl]
      ring
    · rw [nth_set_ne _ _ _ _ hk, if_neg hk]
      ring

/-! ## Helper lemmas: the sorted plan is a permutation of the declared plan -/

theorem zip_map_fst_snd' {α β : Type} (l : List (α × β)) :
    (l.map Prod.fst).zip (l.map Prod.snd) = l := by
  induction l with
  | nil => rfl
  | cons a l ih => simp [ih]

theorem zip_map_snd_fst' {α β : Type} (l : List (α × β)) :
    (l.map Prod.snd).zip (l.map Prod.fst) = l.map Prod.swap := by
  induction l with
  | nil => rfl
  | cons a l ih => simp [ih, Prod.swap]

theorem make_fwd_eq (s t : List Nat) (vc bc : List (String × String)) :
    DataTransfer.make s t vc bc Mode.fwd =
      ⟨(List.insertionSort (fun a b : Nat × Nat => a.1 ≤ b.1) (s.zip t)).map Prod.fst,
       (List.insertionSort (fun a b : Nat × Nat => a.1 ≤ b.1) (s.zip t)).map Prod.snd,
       vc, bc⟩ := rfl

theorem make_rev_eq (s t : List Nat) (vc bc : List (String × String)) :
    DataTransfer.make s t vc bc Mode.rev =
      ⟨(List.insertionSort (fun a b : Nat × Nat => a.1 ≤ b.1) (t.zip s)).map Prod.snd,
       (List.insertionSort (fun a b : Nat × Nat => a.1 ≤ b.1) (t.zip s)).map Prod.fst,
       vc, bc⟩ := rfl

theorem make_src_tgt_perm (s t : List Nat) (vc bc : List (String × String)) (m : Mode) :
    ((DataTransfer.make s t vc bc m).src_slice.zip
      (DataTransfer.make s t vc bc m).tgt_slice).Perm (s.zip t) := by
  cases m with
  | fwd =>
    rw [make_fwd_eq]
    rw [show (⟨(List.insertionSort (fun a b : Nat × Nat => a.1 ≤ b.1) (s.zip t)).map Prod.fst,
       (List.insertionSort (fun a b : Nat × Nat => a.1 ≤ b.1) (s.zip t)).map Prod.snd,
       vc, bc⟩ : DataTransfer).src_slice = _ from rfl,
      show (⟨(List.insertionSort (fun a b : Nat × Nat => a.1 ≤ b.1) (s.zip t)).map Prod.fst,
       (List.insertionSort (fun a b : Nat × Nat => a.1 ≤ b.1) (s.zip t)).map Prod.snd,
       vc, bc⟩ : DataTransfer).tgt_slice = _ from rfl]
    rw [zip_map_fst_snd']
    exact List.perm_insertionSort _ _
  | rev =>
    rw [make_rev_eq]
    rw [show (⟨(List.insertionSort (fun a b : Nat × Nat => a.1 ≤ b.1) (t.zip s)).map Prod.snd,
       (List.insertionSort (fun a b : Nat × Nat => a.1 ≤ b.1) (t.zip s)).map Prod.fst,
       vc, bc⟩ : DataTransfer).src_slice = _ from rfl,
      show (⟨(List.insertionSort (fun a b : Nat × Nat => a.1 ≤ b.1) (t.zip s)).map Prod.snd,
       (List.insertionSort (fun a b : Nat × Nat => a.1 ≤ b.1) (t.zip s)).map Prod.fst,
       vc, bc⟩ : DataTransfer).tgt_slice = _ from rfl]
    rw [zip_map_snd_fst']
    have h := (List.perm_insertionSort (fun a b : Nat × Nat => a.1 ≤ b.1) (t.zip s)).map
      Prod.swap
    rwa [List.zip_swap] at h

theorem make_tgt_src_perm (s t : List Nat) (vc bc : List (String × String)) (m : Mode) :
    ((DataTransfer.make s t vc bc m).tgt_slice.zip
      (DataTransfer.make s t vc bc m).src_slice).Perm (t.zip s) := by
  cases m with
  | fwd =>
    rw [make_fwd_eq]
    rw [show (⟨(List.insertionSort (fun a b : Nat × Nat => a.1 ≤ b.1) (s.zip t)).map Prod.fst,
       (List.insertionSort (fun a b : Nat × Nat => a.1 ≤ b.1) (s.zip t)).map Prod.snd,
       vc, bc⟩ : DataTransfer).tgt_slice = _ from rfl,
      show (⟨(List.insertionSort (fun a b : Nat × Nat => a.1 ≤ b.1) (s.zip t)).map Prod.fst,
       (List.insertionSort (fun a b : Nat × Nat => a.1 ≤ b.1) (s.zip t)).map Prod.snd,
       vc, bc⟩ : DataTransfer).src_slice = _ from rfl]
    rw [zip_map_snd_fst']
    have h := (List.perm_insertionSort (fun a b : Nat × Nat => a.1 ≤ b.1) (s.zip t)).map
      Prod.swap
    rwa [List.zip_swap] at h
  | rev =>
    rw [make_rev_eq]
    rw [show (⟨(List.insertionSort (fun a b : Nat × Nat => a.1 ≤ b.1) (t.zip s)).map Prod.snd,
       (List.insertionSort (fun a b : Nat × Nat => a.1 ≤ b.1) (t.zip s)).map Prod.fst,
       vc, bc⟩ : DataTransfer).tgt_slice = _ from rfl,
      show (⟨(List.insertionSort (fun a b : Nat × Nat => a.1 ≤ b.1) (t.zip s)).map Prod.snd,
       (List.insertionSort (fun a b : Nat × Nat => a.1 ≤ b.1) (t.zip s)).map Prod.fst,
       vc, bc⟩ : DataTransfer).src_slice = _ from rfl]
    rw [zip_map_fst_snd']
    exact List.perm_insertionSort _ _

theorem make_byobj_conns (s t : List Nat) (vc bc : List (String × String)) (m : Mode) :
    (DataTransfer.make s t vc bc m).byobj_conns = bc := by
  cases m <;> rfl

theorem revContrib_perm (k : Nat) {p₁ p₂ : List (Nat × Nat)} (h : p₁.Perm p₂)
    (tgt : List Int) : revContrib k p₁ tgt = revContrib k p₂ tgt :=
  List.Perm.sum_eq ((h.filter _).map _)

theorem mem_zip_swap {α β : Type} {a : α} {b : β} {l₁ : List α} {l₂ : List β}
    (h : (a, b) ∈ l₁.zip l₂) : (b, a) ∈ l₂.zip l₁ := by
  rw [← List.zip_swap]
  exact List.mem_map.2 ⟨(a, b), h, rfl⟩

theorem exists_zip_pair {l₁ l₂ : List Nat} (hlen : l₁.length = l₂.length) {a : Nat}
    (h : a ∈ l₁) : ∃ b, (a, b) ∈ l₁.zip l₂ := by
  obtain ⟨i, hi, rfl⟩ := List.mem_iff_getElem.1 h
  refine ⟨l₂.get ⟨i, by omega⟩, ?_⟩
  rw [List.mem_iff_getElem]
  exact ⟨i, by simp [List.length_zip]; omega, by rw [List.getElem_zip]; rfl⟩

theorem filter_fst_nodup {pairs : List (Nat × Nat)} (hnd : (pairs.map Prod.fst).Nodup)
    {a b : Nat} (hmem : (a, b) ∈ pairs) :
    pairs.filter (fun p => p.1 = a) = [(a, b)] := by
  induction pairs with
  | nil => simp at hmem
  | cons p ps ih =>
    simp only [List.map_cons, List.nodup_cons] at hnd
    rcases List.mem_cons.1 hmem with heq | htail
    · subst heq
      rw [List.filter_cons_of_pos (by simp)]
      have hnil : ps.filter (fun p => p.1 = a) = [] := by
        rw [List.filter_eq_nil_iff]
        intro q hq hqa
        exact hnd.1 (List.mem_map.2 ⟨q, hq, by simpa using hqa⟩)
      rw [hnil]
    · have hne : ¬(p.1 = a) := by
        intro h
        exact hnd.1 (h ▸ List.mem_map.2 ⟨(a, b), htail, rfl⟩)
      rw [List.filter_cons_of_neg (by simpa using hne)]
      exact ih hnd.2 htail

/-! ## Helper lemmas: transfer execution -/

theorem transfer_rev_nth (dt : DataTransfer) (srcvec tgtvec : VecT) (deriv : Bool)
    {pairs : List (Nat × Nat)} (hperm : (dt.src_slice.zip dt.tgt_slice).Perm pairs)
    (h : ∀ p ∈ pairs, p.1 < srcvec.vec.length) (k : Nat) :
    nth ((dt.transfer srcvec tgtvec Mode.rev deriv).1.vec) k
      = nth srcvec.vec k + revContrib k pairs tgtvec.vec := by
  have h' : ∀ p ∈ dt.src_slice.zip dt.tgt_slice, p.1 < srcvec.vec.length := fun p hp =>
    h p (hperm.mem_iff.1 hp)
  show nth (addAt srcvec.vec (dt.src_slice.zip dt.tgt_slice) tgtvec.vec) k = _
  rw [nth_addAt _ _ _ h', revContrib_perm k hperm]

theorem transfer_fwd_vec (dt : DataTransfer) (srcvec tgtvec : VecT) (deriv : Bool) :
    ((dt.transfer srcvec tgtvec Mode.fwd deriv).2).vec
      = setAt tgtvec.vec (dt.tgt_slice.zip dt.src_slice) srcvec.vec := by
  cases deriv <;> rfl

theorem transfer_fwd_nth_mem (dt : DataTransfer) (srcvec tgtvec : VecT) (deriv : Bool)
    {pairsTS : List (Nat × Nat)} (hperm : (dt.tgt_slice.zip dt.src_slice).Perm pairsTS)
    (hnd : (pairsTS.map Prod.fst).Nodup) {t₀ s₀ : Nat} (hmem : (t₀, s₀) ∈ pairsTS)
    (ht : t₀ < tgtvec.vec.length) :
    nth ((dt.transfer srcvec tgtvec Mode.fwd deriv).2.vec) t₀ = nth srcvec.vec s₀ := by
  rw [transfer_fwd_vec]
  exact nth_setAt_mem _ _ _ _ _ ((hperm.map Prod.fst).nodup_iff.2 hnd)
    (hperm.mem_iff.2 hmem) ht

theorem transfer_fwd_nth_not_mem (dt : DataTransfer) (srcvec tgtvec : VecT) (deriv : Bool)
    {pairsTS : List (Nat × Nat)} (hperm : (dt.tgt_slice.zip dt.src_slice).Perm pairsTS)
    {k : Nat} (hk : k ∉ pairsTS.map Prod.fst) :
    nth ((dt.transfer srcvec tgtvec Mode.fwd deriv).2.vec) k = nth tgtvec.vec k := by
  rw [transfer_fwd_vec]
  exact nth_setAt_not_mem _ _ _ _ (fun hmem => hk ((hperm.map Prod.fst).mem_iff.1 hmem))

theorem byobjFold_not_mem (bc : List (String × String)) (f0 sf : String → Int) (x : String)
    (h : x ∉ bc.map Prod.fst) :
    (bc.foldl (fun f p => Function.update f p.1 (sf p.2)) f0) x = f0 x := by
  induction bc generalizing f0 with
  | nil => rfl
  | cons p ps ih =>
    simp only [List.map_cons, List.mem_cons, not_or] at h
    rw [List.foldl_cons, ih _ h.2, Function.update_noteq h.1]

theorem byobjFold_mem (bc : List (String × String)) (f0 sf : String → Int)
    (tb sb : String) (hnd : (bc.map Prod.fst).Nodup) (hmem : (tb, sb) ∈ bc) :
    (bc.foldl (fun f p => Function.update f p.1 (sf p.2)) f0) tb = sf sb := by
  induction bc generalizing f0 with
  | nil => simp at hmem
  | cons p ps ih =>
    simp only [List.map_cons, List.nodup_cons] at hnd
    rcases List.mem_cons.1 hmem with heq | htail
    · subst heq
      rw [List.foldl_cons, byobjFold_not_mem _ _ _ _ hnd.1, Function.update_same]
    · rw [List.foldl_cons]
      exact ih _ hnd.2 htail

/-! ## Claim theorems: data transfer (C3, C4, C5) -/

/-- C3: in every reverse-direction transfer, each `(source index, target
index)` pair of the plan adds the target-side value into the source-side
slot instead of overwriting it; a source slot hit by several pairs —
in particular by a repeated source index — receives the sum of all their
contributions on top of its prior value. -/
theorem transfer_rev_accumulates (src_idxs tgt_idxs : List Nat)
    (vc bc : List (String × String)) (m0 : Mode) (srcvec tgtvec : VecT) (deriv : Bool)
    (h : ∀ p ∈ src_idxs.zip tgt_idxs, p.1 < srcvec.vec.length) (k : Nat) :
    nth (((DataTransfer.make src_idxs tgt_idxs vc bc m0).transfer srcvec tgtvec
        Mode.rev deriv).1.vec) k
      = nth srcvec.vec k + revContrib k (src_idxs.zip tgt_idxs) tgtvec.vec :=
  transfer_rev_nth _ _ _ _ (make_src_tgt_perm src_idxs tgt_idxs vc bc m0) h k

/-- C3 witness: source index 0 is shared by two pairs, with target
values 3 and 4; the reverse transfer adds 3 + 4 = 7 onto the prior
source value 5. -/
theorem transfer_rev_accumulates_witness :
    nth (((DataTransfer.make [0, 0] [0, 1] [] [] Mode.fwd).transfer
        ⟨[5], fun _ => 0⟩ ⟨[3, 4], fun _ => 0⟩ Mode.rev true).1.vec) 0 = 12 := by
  have h := transfer_rev_accumulates [0, 0] [0, 1] [] [] Mode.fwd
    ⟨[5], fun _ => 0⟩ ⟨[3, 4], fun _ => 0⟩ true (by decide) 0
  simpa using h

/-- C4: after a forward transfer each target index of the plan holds the
value its paired source index had at call time; the source vector is
returned unmodified; target positions outside the plan keep their prior
values; and the by-object values are assigned source-to-target exactly
when the pass is not a derivative pass.  The hypotheses are the data
model's plan invariants: paired index lists of equal length, each target
fed by at most one source, indices in range. -/
theorem transfer_fwd_frame (src_idxs tgt_idxs : List Nat)
    (vc bc : List (String × String)) (m0 : Mode) (srcvec tgtvec : VecT) (deriv : Bool)
    (hlen : src_idxs.length = tgt_idxs.length)
    (hnd : tgt_idxs.Nodup)
    (hrng : ∀ t ∈ tgt_idxs, t < tgtvec.vec.length) :
    (((DataTransfer.make src_idxs tgt_idxs vc bc m0).transfer srcvec tgtvec
        Mode.fwd deriv).1 = srcvec)
    ∧ (∀ p ∈ src_idxs.zip tgt_idxs,
        nth (((DataTransfer.make src_idxs tgt_idxs vc bc m0).transfer srcvec tgtvec
          Mode.fwd deriv).2.vec) p.2 = nth srcvec.vec p.1)
    ∧ (∀ k, k ∉ tgt_idxs →
        nth (((DataTransfer.make src_idxs tgt_idxs vc bc m0).transfer srcvec tgtvec
          Mode.fwd deriv).2.vec) k = nth tgtvec.vec k)
    ∧ (((DataTransfer.make src_idxs tgt_idxs vc bc m0).transfer srcvec tgtvec
        Mode.fwd deriv).2.vec.length = tgtvec.vec.length)
    ∧ (deriv = true →
        ((DataTransfer.make src_idxs tgt_idxs vc bc m0).transfer srcvec tgtvec
          Mode.fwd deriv).2.byobj = tgtvec.byobj)
    ∧ (deriv = false → (bc.map Prod.fst).Nodup →
        (∀ q ∈ bc,
          ((DataTransfer.make src_idxs tgt_idxs vc bc m0).transfer srcvec tgtvec
            Mode.fwd deriv).2.byobj q.1 = srcvec.byobj q.2)
        ∧ (∀ x, x ∉ bc.map Prod.fst →
          ((DataTransfer.make src_idxs tgt_idxs vc bc m0).transfer srcvec tgtvec
            Mode.fwd deriv).2.byobj x = tgtvec.byobj x)) := by
  have hQ := make_tgt_src_perm src_idxs tgt_idxs vc bc m0
  have hTfst : (tgt_idxs.zip src_idxs).map Prod.fst = tgt_idxs :=
    List.map_fst_zip _ _ (le_of_eq hlen.symm)
  have hTnd : ((tgt_idxs.zip src_idxs).map Prod.fst).Nodup := by rw [hTfst]; exact hnd
  refine ⟨?_, ?_, ?_, ?_, ?_, ?_⟩
  · cases deriv <;> rfl
  · intro p hp
    obtain ⟨s₀, t₀⟩ := p
    have hmemT : (t₀, s₀) ∈ tgt_idxs.zip src_idxs := mem_zip_swap hp
    have ht₀ : t₀ ∈ tgt_idxs := (List.of_mem_zip hmemT).1
    exact transfer_fwd_nth_mem _ _ _ _ hQ hTnd hmemT (hrng t₀ ht₀)
  · intro k hk
    refine transfer_fwd_nth_not_mem _ _ _ _ hQ ?_
    rw [hTfst]
    exact hk
  · rw [transfer_fwd_vec]
    exact length_setAt _ _ _
  · intro hd
    subst hd
    rfl
  · intro hd hbnd
    subst hd
    have hby : ((DataTransfer.make src_idxs tgt_idxs vc bc m0).transfer srcvec tgtvec
        Mode.fwd false).2.byobj
        = (DataTransfer.make src_idxs tgt_idxs vc bc m0).byobj_conns.foldl
            (fun f p => Function.update f p.1 (srcvec.byobj p.2)) tgtvec.byobj := rfl
    rw [make_byobj_conns] at hby
    constructor
    · intro q hq
      rw [hby]
      exact byobjFold_mem bc tgtvec.byobj (srcvec.byobj) q.1 q.2 hbnd hq
    · intro x hx
      rw [hby]
      exact byobjFold_not_mem bc tgtvec.byobj (srcvec.byobj) x hx

/-- C4 witness: plan `src [1, 0] → tgt [0, 2]`, one by-object connection,
non-derivative pass: target 0 receives source 1's value, target 2
receives source 0's value, target 1 is untouched, the source vector is
returned as passed, and the by-object value is assigned. -/
theorem transfer_fwd_frame_witness :
    (((DataTransfer.make [1, 0] [0, 2] [] [("b", "a")] Mode.fwd).transfer
        ⟨[10, 20], fun _ => 7⟩ ⟨[1, 2, 3], fun _ => 0⟩ Mode.fwd false).1
      = ⟨[10, 20], fun _ => 7⟩)
    ∧ nth (((DataTransfer.make [1, 0] [0, 2] [] [("b", "a")] Mode.fwd).transfer
        ⟨[10, 20], fun _ => 7⟩ ⟨[1, 2, 3], fun _ => 0⟩ Mode.fwd false).2.vec) 0 = 20
    ∧ nth (((DataTransfer.make [1, 0] [0, 2] [] [("b", "a")] Mode.fwd).transfer
        ⟨[10, 20], fun _ => 7⟩ ⟨[1, 2, 3], fun _ => 0⟩ Mode.fwd false).2.vec) 2 = 10
    ∧ nth (((DataTransfer.make [1, 0] [0, 2] [] [("b", "a")] Mode.fwd).transfer
        ⟨[10, 20], fun _ => 7⟩ ⟨[1, 2, 3], fun _ => 0⟩ Mode.fwd false).2.vec) 1 = 2
    ∧ ((DataTransfer.make [1, 0] [0, 2] [] [("b", "a")] Mode.fwd).transfer
        ⟨[10, 20], fun _ => 7⟩ ⟨[1, 2, 3], fun _ => 0⟩ Mode.fwd false).2.byobj "b" = 7 := by
  obtain ⟨h1, h2, h3, _, _, h6⟩ := transfer_fwd_frame [1, 0] [0, 2] [] [("b", "a")]
    Mode.fwd ⟨[10, 20], fun _ => 7⟩ ⟨[1, 2, 3], fun _ => 0⟩ false
    (by decide) (by decide) (by decide)
  refine ⟨h1, ?_, ?_, ?_, ?_⟩
  · simpa using h2 (1, 0) (by decide)
  · simpa using h2 (0, 2) (by decide)
  · simpa using h3 1 (by decide)
  · simpa using (h6 rfl (by decide)).1 ("b", "a") (by decide)

/-- C5 counterexample: the plan `src [0, 0] → tgt [0, 1]` (one source
index feeding two distinct, in-range, duplicate-free targets) breaks
the round trip as claimed for "every transfer plan": the forward
scatter writes 5 into both targets, and the reverse scatter, starting
from a zero source vector, accumulates 5 + 5 = 10 ≠ 5 into source
index 0 — which is a source index of the plan. -/
theorem transfer_roundtrip_counterexample :
    ¬ (∀ s ∈ ([0, 0] : List Nat),
        nth (((DataTransfer.make [0, 0] [0, 1] [] [] Mode.fwd).transfer
            ⟨[0], fun _ => 0⟩
            (((DataTransfer.make [0, 0] [0, 1] [] [] Mode.fwd).transfer
                ⟨[5], fun _ => 0⟩ ⟨[0, 0], fun _ => 0⟩ Mode.fwd true).2)
            Mode.rev true).1.vec) s
          = nth ([5] : List Int) s) := by
  intro h
  have h0 := h 0 (by decide)
  rw [show nth (((DataTransfer.make [0, 0] [0, 1] [] [] Mode.fwd).transfer
      ⟨[0], fun _ => 0⟩
      (((DataTransfer.make [0, 0] [0, 1] [] [] Mode.fwd).transfer
          ⟨[5], fun _ => 0⟩ ⟨[0, 0], fun _ => 0⟩ Mode.fwd true).2)
      Mode.rev true).1.vec) 0 = 10 from rfl] at h0
  exact absurd h0 (by decide)

/-- C5 as amended: forward-then-reverse round-trip neutrality holds for
plans in which no source index is repeated (each source index appears
in exactly one pair) — in addition to the standing plan invariants:
equal-length index lists, duplicate-free in-range target indices, and
in-range source indices.  The counterexample forces the no-repeated-
source restriction; everything else is as the claim states: scattering
forward and then scattering the identical target values back in
reverse, with source accumulation starting from zero, reproduces the
original source values at every source index of the plan. -/
theorem transfer_roundtrip_distinct_sources (src_idxs tgt_idxs : List Nat)
    (vc bc : List (String × String)) (m0 : Mode) (srcvec tgtvec : VecT)
    (ob : String → Int)
    (hlen : src_idxs.length = tgt_idxs.length)
    (hsnd : src_idxs.Nodup) (htnd : tgt_idxs.Nodup)
    (hsrng : ∀ s ∈ src_idxs, s < srcvec.vec.length)
    (htrng : ∀ t ∈ tgt_idxs, t < tgtvec.vec.length) :
    ∀ s ∈ src_idxs,
      nth (((DataTransfer.make src_idxs tgt_idxs vc bc m0).transfer
          ⟨List.replicate srcvec.vec.length 0, ob⟩
          (((DataTransfer.make src_idxs tgt_idxs vc bc m0).transfer
              srcvec tgtvec Mode.fwd true).2)
          Mode.rev true).1.vec) s
        = nth srcvec.vec s := by
  intro s₀ hs₀
  obtain ⟨t₀, hpair⟩ := exists_zip_pair hlen hs₀
  have hSfst : (src_idxs.zip tgt_idxs).map Prod.fst = src_idxs :=
    List.map_fst_zip _ _ (le_of_eq hlen)
  have hSnd : ((src_idxs.zip tgt_idxs).map Prod.fst).Nodup := by rw [hSfst]; exact hsnd
  have hTfst : (tgt_idxs.zip src_idxs).map Prod.fst = tgt_idxs :=
    List.map_fst_zip _ _ (le_of_eq hlen.symm)
  have hTnd : ((tgt_idxs.zip src_idxs).map Prod.fst).Nodup := by rw [hTfst]; exact htnd
  have hrev := transfer_rev_nth (DataTransfer.make src_idxs tgt_idxs vc bc m0)
    ⟨List.replicate srcvec.vec.length 0, ob⟩
    (((DataTransfer.make src_idxs tgt_idxs vc bc m0).transfer srcvec tgtvec
      Mode.fwd true).2) true
    (make_src_tgt_perm src_idxs tgt_idxs vc bc m0)
    (by
      intro p hp
      have := (List.of_mem_zip hp).1
      simpa using hsrng p.1 this) s₀
  rw [hrev]
  have hcontrib : revContrib s₀ (src_idxs.zip tgt_idxs)
      (((DataTransfer.make src_idxs tgt_idxs vc bc m0).transfer srcvec tgtvec
        Mode.fwd true).2.vec)
      = nth (((DataTransfer.make src_idxs tgt_idxs vc bc m0).transfer srcvec tgtvec
        Mode.fwd true).2.vec) t₀ := by
    unfold revContrib
    rw [filter_fst_nodup hSnd hpair]
    simp
  rw [hcontrib]
  have hfwd : nth (((DataTransfer.make src_idxs tgt_idxs vc bc m0).transfer srcvec tgtvec
      Mode.fwd true).2.vec) t₀ = nth srcvec.vec s₀ := by
    have hmemT : (t₀, s₀) ∈ tgt_idxs.zip src_idxs := mem_zip_swap hpair
    exact transfer_fwd_nth_mem _ _ _ _ (make_tgt_src_perm src_idxs tgt_idxs vc bc m0)
      hTnd hmemT (htrng t₀ (List.of_mem_zip hmemT).1)
  rw [hfwd, nth_replicate_zero, zero_add]

/-- C5 amended-theorem witness: plan `src [1, 0] → tgt [0, 2]` with
distinct source indices; the round trip restores both source values. -/
theorem transfer_roundtrip_distinct_sources_witness :
    nth (((DataTransfer.make [1, 0] [0, 2] [] [] Mode.fwd).transfer
        ⟨List.replicate 2 0, fun _ => 0⟩
        (((DataTransfer.make [1, 0] [0, 2] [] [] Mode.fwd).transfer
            ⟨[10, 20], fun _ => 0⟩ ⟨[1, 2, 3], fun _ => 0⟩ Mode.fwd true).2)
        Mode.rev true).1.vec) 0
      = 10 := by
  have h := transfer_roundtrip_distinct_sources [1, 0] [0, 2] [] [] Mode.fwd
    ⟨[10, 20], fun _ => 0⟩ ⟨[1, 2, 3], fun _ => 0⟩ (fun _ => 0)
    (by decide) (by decide) (by decide) (by decide) (by decide) 0 (by decide)
  simpa using h

/-! ## Helper lemmas: derivative propagation -/

theorem getElem?_zipWith_some {α β γ : Type} (f : α → β → γ) :
    ∀ (a : List α) (b : List β) (i : Nat) (x : α) (y : β),
      a[i]? = some x → b[i]? = some y → (List.zipWith f a b)[i]? = some (f x y)
  | [], _, _, _, _, hx, _ => by simp at hx
  | _ :: _, [], _, _, _, _, hy => by simp at hy
  | _ :: _, _ :: _, 0, _, _, hx, hy => by
    simp only [List.getElem?_cons_zero, Option.some.injEq] at hx hy
    simp [List.zipWith_cons_cons, hx, hy]
  | _ :: as, _ :: bs, i + 1, x, y, hx, hy => by
    simp only [List.getElem?_cons_succ] at hx hy
    simpa [List.zipWith_cons_cons] using getElem?_zipWith_some f as bs i x y hx hy

theorem zipWith_add_negVec (a b : List Int) :
    List.zipWith (· + ·) (negVec a) b = List.zipWith (fun u r => u - r) b a := by
  induction a generalizing b with
  | nil => simp [negVec]
  | cons x xs ih =>
    cases b with
    | nil => simp [negVec]
    | cons y ys =>
      simp only [negVec, List.map_cons, List.zipWith_cons_cons] at *
      rw [ih]
      congr 1
      ring

theorem negVec_eq_map_neg (l : List Int) : negVec l = l.map (fun x => -x) := by
  unfold negVec
  congr 1
  funext x
  ring

/-! ## Claim theorems: linear operator application (C1, C2) -/

/-- C1: in forward mode, `Group.apply_linear` first runs the full
derivative scatter and then, for every process-local child that is a
`Component` but not a `ParamComp` and whose local linear operator
computes `dr = dGdp · dp`, delegates to that operator, negates the
child's whole residual-derivative buffer in place, and adds each
unknown's derivative into its own residual slot — so the child's view
afterwards carries `dresids = dunknowns - dGdp · dparams` over its
post-scatter `dparams` and `dunknowns`, which are left unchanged. -/
theorem apply_linear_fwd_explicit_leaf (xf xr : List View → List View)
    (children : List Child) (views : List View) (i : Nat) (J : List (List Int))
    (c : Child) (v' : View)
    (hc : children[i]? = some c) (hv : (xf views)[i]? = some v')
    (hcomp : c.isComponent = true) (hpc : c.isParamComp = false)
    (hJ : c.applyLin = localExplicitFwd J) :
    (Group.apply_linear xf xr true children Mode.fwd views)[i]?
      = some { dparams := v'.dparams, dunknowns := v'.dunknowns,
               dresids := List.zipWith (fun u r => u - r) v'.dunknowns
                 (mulVec J v'.dparams) } := by
  have happ : Group.apply_linear xf xr true children Mode.fwd views
      = List.zipWith (childStep Mode.fwd) children (xf views) := rfl
  rw [happ, getElem?_zipWith_some _ _ _ _ _ _ hc hv]
  have hstep : childStep Mode.fwd c v'
      = { dparams := v'.dparams, dunknowns := v'.dunknowns,
          dresids := List.zipWith (fun u r => u - r) v'.dunknowns (mulVec J v'.dparams) } := by
    unfold childStep
    rw [hcomp, hpc]
    simp only [Bool.not_false, Bool.and_true, if_pos rfl, hJ]
    unfold localExplicitFwd
    simp [zipWith_add_negVec]
  rw [hstep]

/-- C1 witness: the spec's own example, a chain `u_B = 2 u_A` with
`d u_A = 1` and `d u_B = 0`: the final residual-derivative is
`du_B - 2 du_A = -2` (and indeed `-2` before the identity term as the
incoming `dunknowns` is zero). -/
theorem apply_linear_fwd_explicit_leaf_witness :
    (Group.apply_linear id id true [⟨true, false, localExplicitFwd [[2]]⟩] Mode.fwd
        [⟨[1], [0], [99]⟩])[0]?
      = some ⟨[1], [0], [-2]⟩ := by
  have h := apply_linear_fwd_explicit_leaf id id
    [⟨true, false, localExplicitFwd [[2]]⟩] [⟨[1], [0], [99]⟩] 0 [[2]]
    ⟨true, false, localExplicitFwd [[2]]⟩ ⟨[1], [0], [99]⟩ rfl rfl rfl rfl rfl
  simpa using h

/-- C2: in reverse mode, `Group.apply_linear` processes the children in
the same registration order as forward mode (the same `zipWith` over
the same child list, forward merely pre-scattering first), and runs the
one full reverse derivative scatter only after every child has been
processed; and each explicit leaf child's step is exactly the spec's:
negate the residual-derivative, delegate to the child's own operator,
negate back, then accumulate (add, not overwrite) the
residual-derivative into the state-derivative slots. -/
theorem apply_linear_rev_structure (xf xr : List View → List View)
    (children : List Child) (views : List View) :
    (Group.apply_linear xf xr true children Mode.rev views
        = xr (List.zipWith (childStep Mode.rev) children views))
    ∧ (Group.apply_linear xf xr true children Mode.fwd views
        = List.zipWith (childStep Mode.fwd) children (xf views))
    ∧ (∀ c v, c.isComponent = true → c.isParamComp = false →
        childStep Mode.rev c v = specRevStep c v) := by
  refine ⟨rfl, rfl, ?_⟩
  intro c v hcomp hpc
  unfold childStep specRevStep
  rw [hcomp, hpc]
  simp only [Bool.not_false, Bool.and_true, if_pos rfl]
  rw [← negVec_eq_map_neg, ← negVec_eq_map_neg]
  exact if_pos trivial

/-- C2 witness: a concrete explicit leaf whose local reverse operator
copies `dresids` into `dparams`; the group step equals the spec-worded
step, and the state-derivative slot is accumulated to `4 + 3 = 7`, the
reverse scatter running on the loop's output. -/
theorem apply_linear_rev_structure_witness :
    childStep Mode.rev ⟨true, false, fun _ v => { v with dparams := v.dresids }⟩
        ⟨[0], [4], [3]⟩
      = specRevStep ⟨true, false, fun _ v => { v with dparams := v.dresids }⟩
        ⟨[0], [4], [3]⟩
    ∧ (specRevStep ⟨true, false, fun _ v => { v with dparams := v.dresids }⟩
        ⟨[0], [4], [3]⟩).dunknowns = [7] := by
  have h := (apply_linear_rev_structure id id
    [⟨true, false, fun _ v => { v with dparams := v.dresids }⟩] [⟨[0], [4], [3]⟩]).2.2
    ⟨true, false, fun _ v => { v with dparams := v.dresids }⟩ ⟨[0], [4], [3]⟩ rfl rfl
  exact ⟨h, by decide⟩

/-! ## Helper lemmas: grouping by relative name -/

theorem getGroup_mapUpd_ne (m : List (String × List String)) (k v r : String)
    (hne : r ≠ k) :
    getGroup (m.map (fun kv => if kv.1 = k then (kv.1, kv.2 ++ [v]) else kv)) r
      = getGroup m r := by
  induction m with
  | nil => rfl
  | cons q ms ih =>
    have hfst : ((if q.1 = k then (q.1, q.2 ++ [v]) else q)).1 = q.1 := by
      split <;> rfl
    by_cases h1 : q.1 = r
    · have h1k : ¬(q.1 = k) := fun hh => hne (h1 ▸ hh)
      unfold getGroup
      rw [List.map_cons, List.find?_cons_of_pos _ (by simpa [hfst] using h1),
        List.find?_cons_of_pos _ (by simpa using h1), if_neg h1k]
    · unfold getGroup
      rw [List.map_cons, List.find?_cons_of_neg _ (by simpa [hfst] using h1),
        List.find?_cons_of_neg _ (by simpa using h1)]
      exact ih

theorem getGroup_mapUpd_self (m : List (String × List String)) (k v : String)
    (hany : m.any (fun kv => kv.1 = k) = true) :
    getGroup (m.map (fun kv => if kv.1 = k then (kv.1, kv.2 ++ [v]) else kv)) k
      = getGroup m k ++ [v] := by
  induction m with
  | nil => simp at hany
  | cons q ms ih =>
    by_cases h1 : q.1 = k
    · unfold getGroup
      rw [List.map_cons, if_pos h1, List.find?_cons_of_pos _ (by simpa using h1),
        List.find?_cons_of_pos _ (by simpa using h1)]
    · have hany' : ms.any (fun kv => kv.1 = k) = true := by
        simpa [List.any_cons, h1] using hany
      unfold getGroup
      rw [List.map_cons, if_neg h1, List.find?_cons_of_neg _ (by simpa using h1),
        List.find?_cons_of_neg _ (by simpa using h1)]
      exact ih hany'

theorem getGroup_append_new (m : List (String × List String)) (k v r : String)
    (hany : m.any (fun kv => kv.1 = k) = false) :
    getGroup (m ++ [(k, [v])]) r = getGroup m r ++ (if r = k then [v] else []) := by
  unfold getGroup
  rw [List.find?_append]
  cases hf : m.find? (fun kv => kv.1 = r) with
  | some kv =>
    have hkv : kv.1 = r := by simpa using List.find?_some hf
    have hrk : ¬(r = k) := by
      intro hh
      have hmemk : m.any (fun kv => kv.1 = k) = true :=
        List.any_eq_true.2 ⟨kv, List.mem_of_find?_eq_some hf, by simp [hkv, hh]⟩
      rw [hmemk] at hany
      cases hany
    rw [if_neg hrk]
    simp [Option.or]
  | none =>
    simp only [Option.none_or]
    by_cases hr : r = k
    · rw [if_pos hr, hr, List.find?_cons_of_pos _ (by simp)]
      rfl
    · rw [if_neg hr,
        List.find?_cons_of_neg _ (by simpa using fun hh : k = r => hr hh.symm)]
      rfl

theorem getGroup_setdefaultAppend (m : List (String × List String)) (k v r : String) :
    getGroup (setdefaultAppend m k v) r
      = getGroup m r ++ (if r = k then [v] else []) := by
  unfold setdefaultAppend
  by_cases hany : m.any (fun kv => kv.1 = k) = true
  · rw [if_pos hany]
    by_cases hr : r = k
    · rw [if_pos hr, hr]
      exact getGroup_mapUpd_self m k v hany
    · rw [if_neg hr, getGroup_mapUpd_ne m k v r hr]
      simp
  · rw [if_neg hany]
    exact getGroup_append_new m k v r (Bool.eq_false_iff.2 hany)

theorem getGroup_foldl_setdefault (d : VarDict) (r : String) :
    ∀ m : List (String × List String),
      getGroup (d.foldl (fun m kv => setdefaultAppend m kv.2 kv.1) m) r
        = getGroup m r ++ (d.filter (fun kv => kv.2 = r)).map Prod.fst := by
  induction d with
  | nil => intro m; simp
  | cons kv ds ih =>
    intro m
    rw [List.foldl_cons, ih, getGroup_setdefaultAppend]
    by_cases hr : r = kv.2
    · rw [if_pos hr, List.filter_cons_of_pos (by simp [hr])]
      simp
    · rw [if_neg hr, List.filter_cons_of_neg (by simpa using fun hh => hr hh.symm)]
      simp

theorem getGroup_groupByRel (d : VarDict) (r : String) :
    getGroup (groupByRel d) r = (d.filter (fun kv => kv.2 = r)).map Prod.fst := by
  have h := getGroup_foldl_setdefault d r []
  unfold groupByRel
  rw [h]
  rfl

theorem keys_mapUpd (m : List (String × List String)) (k v : String) :
    (m.map (fun kv => if kv.1 = k then (kv.1, kv.2 ++ [v]) else kv)).map Prod.fst
      = m.map Prod.fst := by
  induction m with
  | nil => rfl
  | cons q ms ih =>
    have hfst : ((if q.1 = k then (q.1, q.2 ++ [v]) else q)).1 = q.1 := by
      split <;> rfl
    simp only [List.map_cons, hfst, ih]

theorem keys_nodup_setdefaultAppend (m : List (String × List String)) (k v : String)
    (h : (m.map Prod.fst).Nodup) : ((setdefaultAppend m k v).map Prod.fst).Nodup := by
  unfold setdefaultAppend
  by_cases hany : m.any (fun kv => kv.1 = k) = true
  · rw [if_pos hany, keys_mapUpd]
    exact h
  · rw [if_neg hany, List.map_append]
    rw [List.nodup_append]
    refine ⟨h, by simp, ?_⟩
    intro x hx hxk
    simp only [List.map_cons, List.map_nil, List.mem_singleton] at hxk
    subst hxk
    obtain ⟨q, hq, hqk⟩ := List.mem_map.1 hx
    exact hany (List.any_eq_true.2 ⟨q, hq, by simp [hqk]⟩)

theorem keys_nodup_foldl_setdefault (d : VarDict) :
    ∀ m : List (String × List String), (m.map Prod.fst).Nodup →
      ((d.foldl (fun m kv => setdefaultAppend m kv.2 kv.1) m).map Prod.fst).Nodup := by
  induction d with
  | nil => intro m hm; exact hm
  | cons kv ds ih =>
    intro m hm
    rw [List.foldl_cons]
    exact ih _ (keys_nodup_setdefaultAppend m kv.2 kv.1 hm)

theorem keys_nodup_groupByRel (d : VarDict) : ((groupByRel d).map Prod.fst).Nodup :=
  keys_nodup_foldl_setdefault d [] (by simp)

theorem getGroup_eq_of_mem_nodup (m : List (String × List String))
    (kv : String × List String) (hmem : kv ∈ m) (hnd : (m.map Prod.fst).Nodup) :
    getGroup m kv.1 = kv.2 := by
  induction m with
  | nil => simp at hmem
  | cons q ms ih =>
    simp only [List.map_cons, List.nodup_cons] at hnd
    rcases List.mem_cons.1 hmem with heq | htail
    · subst heq
      unfold getGroup
      rw [List.find?_cons_of_pos _ (by simp)]
    · have hq : ¬(q.1 = kv.1) := fun hh =>
        hnd.1 (hh ▸ List.mem_map.2 ⟨kv, htail, rfl⟩)
      have hcons : getGroup (q :: ms) kv.1 = getGroup ms kv.1 := by
        unfold getGroup
        rw [List.find?_cons_of_neg _ (by simpa using hq)]
      rw [hcons]
      exact ih htail hnd.2

/-! ## Claim theorem: implicit-connection ambiguity (C6) -/

/-- C6: whenever some relative name is claimed by two or more unknowns,
`_get_implicit_connections` raises eagerly — the `Except.error` is
produced by the check loop that runs before the connection-building
loop, so no connection entry exists — and the error carries an
offending relative name together with the full list of conflicting
absolute unknown pathnames. -/
theorem implicit_connections_ambiguous (params_dict unknowns_dict : VarDict)
    (h : ∃ r, 2 ≤ (unknowns_dict.filter (fun kv => kv.2 = r)).length) :
    ∃ r lst, get_implicit_connections params_dict unknowns_dict = Except.error (r, lst)
      ∧ lst = (unknowns_dict.filter (fun kv => kv.2 = r)).map Prod.fst
      ∧ 2 ≤ lst.length := by
  obtain ⟨r, hr⟩ := h
  have hg : getGroup (groupByRel unknowns_dict) r
      = (unknowns_dict.filter (fun kv => kv.2 = r)).map Prod.fst :=
    getGroup_groupByRel _ _
  have hglen : 1 < (getGroup (groupByRel unknowns_dict) r).length := by
    rw [hg, List.length_map]
    omega
  have hex : ∃ kv, kv ∈ groupByRel unknowns_dict ∧ 1 < kv.2.length := by
    unfold getGroup at hglen
    cases hf : (groupByRel unknowns_dict).find? (fun kv => kv.1 = r) with
    | none => rw [hf] at hglen; simp at hglen
    | some kv =>
      rw [hf] at hglen
      exact ⟨kv, List.mem_of_find?_eq_some hf, hglen⟩
  have hsome : ((groupByRel unknowns_dict).find? (fun kv => 1 < kv.2.length)).isSome := by
    rw [List.find?_isSome]
    obtain ⟨kv, hm, hp⟩ := hex
    exact ⟨kv, hm, by simpa using hp⟩
  obtain ⟨kv₀, hf₀⟩ := Option.isSome_iff_exists.1 hsome
  have hmem₀ := List.mem_of_find?_eq_some hf₀
  have hp₀ : 1 < kv₀.2.length := by simpa using List.find?_some hf₀
  have hval : getGroup (groupByRel unknowns_dict) kv₀.1 = kv₀.2 :=
    getGroup_eq_of_mem_nodup _ _ hmem₀ (keys_nodup_groupByRel _)
  refine ⟨kv₀.1, kv₀.2, ?_, ?_, by omega⟩
  · simp only [get_implicit_connections, hf₀]
  · rw [← getGroup_groupByRel, hval]

/-- C6 witness: two unknowns (`a:x`, `b:x`) promoted to the same
relative name `x` make resolution fail with that name and both paths. -/
theorem implicit_connections_ambiguous_witness :
    get_implicit_connections [] [("a:x", "x"), ("b:x", "x")]
      = Except.error ("x", ["a:x", "b:x"]) := by
  have _h :=
    implicit_connections_ambiguous [] [("a:x", "x"), ("b:x", "x")] ⟨"x", by decide⟩
  rfl

/-! ## Helper lemmas: connection-map assignment -/

theorem dictGet_mapSet_ne (c : List (String × String)) (k v k' : String) (hne : k' ≠ k) :
    dictGet (c.map (fun kv => if kv.1 = k then (kv.1, v) else kv)) k' = dictGet c k' := by
  induction c with
  | nil => rfl
  | cons q ms ih =>
    have hfst : ((if q.1 = k then (q.1, v) else q)).1 = q.1 := by
      split <;> rfl
    by_cases h1 : q.1 = k'
    · have h1k : ¬(q.1 = k) := fun hh => hne (h1 ▸ hh)
      unfold dictGet
      rw [List.map_cons, List.find?_cons_of_pos _ (by simpa [hfst] using h1),
        List.find?_cons_of_pos _ (by simpa using h1), if_neg h1k]
    · unfold dictGet
      rw [List.map_cons, List.find?_cons_of_neg _ (by simpa [hfst] using h1),
        List.find?_cons_of_neg _ (by simpa using h1)]
      exact ih

theorem dictGet_mapSet_self (c : List (String × String)) (k v : String)
    (hany : c.any (fun kv => kv.1 = k) = true) :
    dictGet (c.map (fun kv => if kv.1 = k then (kv.1, v) else kv)) k = some v := by
  induction c with
  | nil => simp at hany
  | cons q ms ih =>
    by_cases h1 : q.1 = k
    · unfold dictGet
      rw [List.map_cons, if_pos h1, List.find?_cons_of_pos _ (by simpa using h1)]
      rfl
    · have hany' : ms.any (fun kv => kv.1 = k) = true := by
        simpa [List.any_cons, h1] using hany
      unfold dictGet
      rw [List.map_cons, if_neg h1, List.find?_cons_of_neg _ (by simpa using h1)]
      exact ih hany'

theorem dictGet_dictSet_self (c : List (String × String)) (k v : String) :
    dictGet (dictSet c k v) k = some v := by
  unfold dictSet
  by_cases hany : c.any (fun kv => kv.1 = k) = true
  · rw [if_pos hany]
    exact dictGet_mapSet_self c k v hany
  · rw [if_neg hany]
    have hnone : c.find? (fun kv => kv.1 = k) = none := by
      rw [List.find?_eq_none]
      intro x hx hpx
      exact hany (List.any_eq_true.2 ⟨x, hx, hpx⟩)
    unfold dictGet
    rw [List.find?_append, hnone, Option.none_or, List.find?_cons_of_pos _ (by simp)]
    rfl

theorem dictGet_dictSet_ne (c : List (String × String)) (k v k' : String)
    (hne : k' ≠ k) : dictGet (dictSet c k v) k' = dictGet c k' := by
  unfold dictSet
  by_cases hany : c.any (fun kv => kv.1 = k) = true
  · rw [if_pos hany]
    exact dictGet_mapSet_ne c k v k' hne
  · rw [if_neg hany]
    unfold dictGet
    rw [List.find?_append,
      List.find?_cons_of_neg _ (by simpa using fun hh : k = k' => hne hh.symm)]
    cases hf : c.find? (fun kv => kv.1 = k') <;> rfl

theorem dictGet_foldlSet_not_mem (tgts : List String) (v : String)
    (c0 : List (String × String)) (x : String) (hx : x ∉ tgts) :
    dictGet (tgts.foldl (fun c t => dictSet c t v) c0) x = dictGet c0 x := by
  induction tgts generalizing c0 with
  | nil => rfl
  | cons t0 ts ih =>
    simp only [List.mem_cons, not_or] at hx
    rw [List.foldl_cons, ih _ hx.2, dictGet_dictSet_ne c0 t0 v x hx.1]

theorem dictGet_foldlSet_mem (tgts : List String) (v : String)
    (c0 : List (String × String)) (tp : String) (h : tp ∈ tgts) :
    dictGet (tgts.foldl (fun c t => dictSet c t v) c0) tp = some v := by
  induction tgts generalizing c0 with
  | nil => simp at h
  | cons t0 ts ih =>
    rw [List.foldl_cons]
    by_cases hts : tp ∈ ts
    · exact ih _ hts
    · have ht0 : tp = t0 := by
        rcases List.mem_cons.1 h with h1 | h2
        · exact h1
        · exact absurd h2 hts
      rw [dictGet_foldlSet_not_mem ts v _ tp hts, ht0, dictGet_dictSet_self]

theorem get_absvarpathnames_eq_error (var_name : String) (var_dict : VarDict)
    (dict_name : String)
    (h : (var_dict.filter (fun kv => kv.2 = var_name)).map Prod.fst = []) :
    get_absvarpathnames var_name var_dict dict_name = Except.error (var_name, dict_name) := by
  unfold get_absvarpathnames
  rw [if_pos (by rw [h]; rfl)]

theorem get_absvarpathnames_eq_ok (var_name : String) (var_dict : VarDict)
    (dict_name : String) (p0 : String) (prest : List String)
    (h : (var_dict.filter (fun kv => kv.2 = var_name)).map Prod.fst = p0 :: prest) :
    get_absvarpathnames var_name var_dict dict_name = Except.ok (p0 :: prest) := by
  unfold get_absvarpathnames
  rw [h, if_neg (by simp)]

/-! ## Claim theorems: explicit-connection resolution (C7) -/

/-- C7 counterexample: the declared link `('x' → 'y')` with two source
paths (`a:x`, `b:x`) matching the declared source name `x` produces
only one connection entry, pairing the target with the FIRST matching
source path; the claimed entry for the pair `(c:y, b:x)` does not
exist, even though `b:x` matches the declared source. -/
theorem explicit_connections_counterexample :
    get_explicit_connections [("y", "x")] [("c:y", "y")] [("a:x", "x"), ("b:x", "x")]
        = Except.ok [("c:y", "a:x")]
    ∧ "b:x" ∈ ((([("a:x", "x"), ("b:x", "x")] : VarDict).filter
        (fun kv => kv.2 = "x")).map Prod.fst)
    ∧ dictGet [("c:y", "a:x")] "c:y" ≠ some "b:x" :=
  ⟨rfl, by decide, by decide⟩

/-- C7 as amended: a declared `(target name, source name)` link is
expanded to every concrete target path whose relative name equals the
declared target, each mapped to the FIRST source path (in unknowns-
dictionary order) whose relative name matches the declared source —
not to every matching source path; and a side with zero matches makes
resolution fail with an error naming that variable and its dictionary,
source side checked first. -/
theorem explicit_connections_first_source (t s : String)
    (params_dict unknowns_dict : VarDict) :
    ((unknowns_dict.filter (fun kv => kv.2 = s)).map Prod.fst = [] →
      get_explicit_connections [(t, s)] params_dict unknowns_dict
        = Except.error (s, "unknowns"))
    ∧ (∀ src0 srcrest,
        (unknowns_dict.filter (fun kv => kv.2 = s)).map Prod.fst = src0 :: srcrest →
        ((params_dict.filter (fun kv => kv.2 = t)).map Prod.fst = [] →
          get_explicit_connections [(t, s)] params_dict unknowns_dict
            = Except.error (t, "params"))
        ∧ (∀ tgts, (params_dict.filter (fun kv => kv.2 = t)).map Prod.fst = tgts →
            tgts ≠ [] →
            ∃ conns,
              get_explicit_connections [(t, s)] params_dict unknowns_dict
                = Except.ok conns
              ∧ ∀ tp ∈ tgts, dictGet conns tp = some src0)) := by
  constructor
  · intro hs
    unfold get_explicit_connections explicit_conns_loop
    rw [get_absvarpathnames_eq_error s unknowns_dict "unknowns" hs]
  · intro src0 srcrest hs
    constructor
    · intro ht
      unfold get_explicit_connections explicit_conns_loop
      rw [get_absvarpathnames_eq_ok s unknowns_dict "unknowns" src0 srcrest hs,
        get_absvarpathnames_eq_error t params_dict "params" ht]
    · intro tgts htgts hne
      cases tgts with
      | nil => exact absurd rfl hne
      | cons tp0 tprest =>
        refine ⟨(tp0 :: tprest).foldl (fun c tp => dictSet c tp src0) [], ?_, ?_⟩
        · unfold get_explicit_connections explicit_conns_loop
          rw [get_absvarpathnames_eq_ok s unknowns_dict "unknowns" src0 srcrest hs,
            get_absvarpathnames_eq_ok t params_dict "params" tp0 tprest htgts]
          rfl
        · intro tp htp
          exact dictGet_foldlSet_mem _ _ _ _ htp

/-- C7 amended-theorem witness: with two sources promoted to `x`, the
single produced entry maps the target path to the first one, `a:x`. -/
theorem explicit_connections_first_source_witness :
    dictGet [("c:y", "a:x")] "c:y" = some "a:x" := by
  obtain ⟨conns, hok, hall⟩ :=
    (explicit_connections_first_source "y" "x" [("c:y", "y")]
      [("a:x", "x"), ("b:x", "x")]).2 "a:x" ["b:x"] (by decide) |>.2
      ["c:y"] (by decide) (by decide)
  have hc : conns = [("c:y", "a:x")] := by
    have : Except.ok (ε := String × String) [("c:y", "a:x")] = Except.ok conns := by
      rw [← hok]
      rfl
    exact (Except.ok.injEq _ _ ▸ this).symm
  rw [← hc]
  exact hall "c:y" (by decide)

/-! ## Claim theorem: linear solve short circuit (C8) -/

/-- C8: on an active group, whenever the right-hand side's norm is below
the fixed tolerance `1e-15` (equivalently, its squared norm below the
squared tolerance), `solve_linear` zeroes the solution vector and
returns it immediately, and the pluggable iterative solver is not
invoked — the outcome is the same for every `solver`, with
`solver_called = false`. -/
theorem solve_linear_zero_rhs (solver : List ℚ → Mode → List ℚ) (g : LinGroup)
    (rhs : List ℚ) (mode : Option Mode)
    (ha : g.active = true) (hn : normSq rhs < (1 / 10 ^ 15) ^ 2) :
    solve_linear solver g rhs mode
      = ⟨{ g with sol_vec := List.replicate g.sol_vec.length 0 },
         some (List.replicate g.sol_vec.length 0), false⟩ := by
  unfold solve_linear
  rw [ha, if_neg (by simp), if_pos hn]

/-- C8 witness: an all-zero right-hand side short-circuits; the stray
solver answering `[9]` leaves no trace in the outcome. -/
theorem solve_linear_zero_rhs_witness :
    solve_linear (fun _ _ => [9]) ⟨true, [1, 2], [5], Mode.fwd⟩ [0] none
      = ⟨⟨true, [0, 0], [5], Mode.fwd⟩, some [0, 0], false⟩ := by
  have h := solve_linear_zero_rhs (fun _ _ => [9]) ⟨true, [1, 2], [5], Mode.fwd⟩ [0] none
    rfl (by norm_num [normSq])
  exact h

/-! ## Claim theorem: Jacobian assembly (C9) -/

/-- C9: for a child of the Jacobian assembly loop that is a `Component`
and not a `ParamComp`, the local Jacobian is cached and every bare-
scalar entry appears in the cached mapping as the one-by-one array
`[[v]]`; for every other child (a `ParamComp` or a non-`Component`) the
`_jacobian_cache` attribute is left untouched.  `Group.jacobian` is the
assembly loop mapping this step over the local children. -/
theorem jacobian_normalizes_scalars (c : JChild) :
    (c.isComponent = true → c.isParamComp = false →
      (jacobian_child c).jac_cache
        = (if c.force_fd then some c.fd_jac else c.ana_jac).map normalize_jac
      ∧ (∀ jc key v, (if c.force_fd then some c.fd_jac else c.ana_jac) = some jc →
          (key, JacVal.scalar v) ∈ jc →
          (key, JacVal.arr [[v]]) ∈ ((jacobian_child c).jac_cache).getD []))
    ∧ ((c.isComponent = false ∨ c.isParamComp = true) →
      (jacobian_child c).jac_cache = c.jac_cache)
    ∧ Group.jacobian [c] = [jacobian_child c] := by
  refine ⟨?_, ?_, rfl⟩
  · intro hcomp hpc
    have hcond : (c.isComponent && !c.isParamComp) = true := by
      rw [hcomp, hpc]
      rfl
    have hcache : (jacobian_child c).jac_cache
        = (if c.force_fd then some c.fd_jac else c.ana_jac).map normalize_jac := by
      unfold jacobian_child
      rw [hcond, if_pos rfl]
    refine ⟨hcache, ?_⟩
    intro jc key v hjc hmem
    rw [hcache, hjc]
    show (key, JacVal.arr [[v]]) ∈ normalize_jac jc
    exact List.mem_map.2 ⟨(key, JacVal.scalar v), hmem, rfl⟩
  · intro hor
    have hcond : (c.isComponent && !c.isParamComp) = false := by
      rcases hor with h | h <;> rw [h] <;> simp
    unfold jacobian_child
    rw [hcond, if_neg (by simp)]

/-- C9 witness: the scalar entry `3` of an explicit component's local
Jacobian is cached as the one-by-one array `[[3]]`. -/
theorem jacobian_normalizes_scalars_witness :
    (jacobian_child ⟨true, false, false, [], some [("a", JacVal.scalar 3)], none⟩).jac_cache
        = some [("a", JacVal.arr [[3]])]
    ∧ ("a", JacVal.arr [[3]]) ∈ ((jacobian_child
        ⟨true, false, false, [], some [("a", JacVal.scalar 3)], none⟩).jac_cache).getD [] := by
  obtain ⟨h1, h2⟩ := (jacobian_normalizes_scalars
    ⟨true, false, false, [], some [("a", JacVal.scalar 3)], none⟩).1 rfl rfl
  exact ⟨h1.trans rfl, h2 [("a", JacVal.scalar 3)] "a" 3 rfl (by decide)⟩

/-! ## Claim theorem: inactive get/set (C10) -/

/-- C10: on a group that is not active, retrieving a variable (a name
that does not resolve to a subsystem) returns `None` — before the
`setup()`-required check, so even a group whose `_varmanager` is still
`None` returns `None` rather than raising — and setting a variable
returns the group unchanged; neither operation touches any state. -/
theorem inactive_group_get_set (g : GSys) (name : List String) (v : Int)
    (hact : g.active = false) (hsub : g.findSub name = none) :
    g.getitem name = GetRes.noneR ∧ g.setitem name v = Except.ok g := by
  constructor
  · rw [GSys.getitem.eq_def]
    split
    · rename_i val heq
      rw [hsub] at heq
      cases heq
    · rw [hact, if_pos rfl]
  · unfold GSys.setitem
    rw [hact, if_neg (by simp)]

/-- C10 witness: an inactive group with `setup()` not run (`_varmanager`
is `None`): getting `x` yields `None` instead of the setup error, and
setting `x` is a no-op. -/
theorem inactive_group_get_set_witness :
    (GSys.mk false none []).getitem ["x"] = GetRes.noneR
    ∧ (GSys.mk false none []).setitem ["x"] 3 = Except.ok (GSys.mk false none []) :=
  inactive_group_get_set (GSys.mk false none []) ["x"] 3 rfl rfl

end OM
